import Mathlib

/-!
Shallow embedding of src/include/tensor_enumeration/lexicographic.h
(class TensorEnumeration::Lexicographic<n,k,Bint,Sint,Tint>).

Integer model: the template integer types Bint and Sint are modelled as
unbounded naturals (they are template parameters, and the header's contract
is that they are instantiated wide enough for the values at hand).  The
tiny type Tint is modelled by an explicit modulus parameter `tm`: for a
w-bit unsigned Tint, `tm = 2 ^ w` (the shipped default `unsigned char`
gives `tm = 256`).  The source stores each per-axis radix into a Tint local
variable (`Tint fdim = ...`, lines 139, 146, 165, 171), so the radix value
is reduced `% tm` at exactly those points; no other operation of the
translation unit narrows a value to Tint.

The header includes tensor_enumeration/combinations.h, which is not among
the sources available here; the Combinations/Combination layer is modelled
from the specification, see the definitions whose doc comments start with
"Modelled from the spec:".  The specification describes that layer twice:
its index formula `i = Σ_j C(a_j, j+1)` (the combinatorial number system,
§4.1) ranks the k-subsets in colexicographic order, while the prose calls
the enumeration order lexicographic; the two descriptions disagree for
n ≥ 4, 2 ≤ k ≤ n−2.  The model keeps the explicit formula and the
spec's binding inverse property `at(index_of(c)) = c` (§8 property 5), so
the enumeration below lists the subsets in the order ranked by the formula.
-/

namespace TensorEnumeration

/-- Modelled from the spec: `Combinations<n,k>::index` is the combinatorial
number system rank `i = Σ_j C(a_j, j+1)` (§4.1); `combIndexFrom j` is the
partial sum starting at digit position `j`. -/
def combIndexFrom : Nat → List Nat → Nat
  | _, [] => 0
  | j, a :: c => Nat.choose a (j + 1) + combIndexFrom (j + 1) c

/-- Modelled from the spec: `Combinations<n,k>::index(c)` (§4.1). -/
def combIndex (c : List Nat) : Nat := combIndexFrom 0 c

/-- Modelled from the spec: the table of strictly increasing k-element
subsets of {0,…,n−1} underlying `Combinations<n,k>::operator[]`, listed in
the order ranked by `combIndex`, so that the spec's inverse property
(§8 property 5) holds. -/
def combosC : Nat → Nat → List (List Nat)
  | _, 0 => [[]]
  | 0, _ + 1 => []
  | n + 1, k + 1 => combosC n (k + 1) ++ (combosC n k).map (fun c => c ++ [n])

/-- Modelled from the spec: `Combination<n,k>::in(j)`, the j-th chosen
axis of the combination (§4.1). -/
def inAx (c : List Nat) (j : Nat) : Nat := c.getD j 0

/-- Modelled from the spec: the complement axes of a combination in
increasing order (§4.1). -/
def compl (n : Nat) (c : List Nat) : List Nat :=
  (List.range n).filter (fun a => decide (a ∉ c))

/-- Modelled from the spec: `Combination<n,k>::out(j)`, the j-th
complement axis (§4.1). -/
def outAx (n : Nat) (c : List Nat) (j : Nat) : Nat := (compl n c).getD j 0

/-- The struct `Lexicographic::Element` (lines 44–64): a combination plus
the digits along the chosen axes and across the complement axes. -/
structure Element where
  directions : List Nat
  position_along : List Nat
  position_across : List Nat
  deriving DecidableEq, Repr

/-- The constructor loop body for one combination (lines 77–83):
`Bint p = 1;` then `p *= dimensions[combination.in(j)]` over the k chosen
axes, then `p *= 1 + dimensions[combination.out(j)]` over the complement. -/
def mkBlockSize (n : Nat) (d : List Nat) (c : List Nat) : Nat :=
  (compl n c).foldl (fun p a => p * (1 + d.getD a 0))
    (c.foldl (fun p a => p * d.getD a 0) 1)

/-- The array `Lexicographic::block_sizes` filled by the constructor
(lines 71–85): entry `i` is the block size of combination `i`. -/
def block_sizes (n k : Nat) (d : List Nat) : List Nat :=
  (combosC n k).map (mkBlockSize n d)

/-- `Lexicographic::size` (lines 90–96): the sum of all block sizes. -/
def size (n k : Nat) (d : List Nat) : Nat := (block_sizes n k d).sum

/-- `Lexicographic::block_size(block)` (lines 101–104): the entry
`block_sizes[block]`. -/
def block_size (n k : Nat) (d : List Nat) (b : Nat) : Nat :=
  (block_sizes n k d).getD b 0

/-- The along-axis radices as the digit loops see them: the source stores
`Tint fdim = dimensions[combination.in(i)]` (lines 139, 165), reducing the
dimension modulo `tm`. -/
def alongRadices (tm : Nat) (d : List Nat) (c : List Nat) : List Nat :=
  c.map (fun a => d.getD a 0 % tm)

/-- The across-axis radices: `Tint fdim = 1 + dimensions[combination.out(i)]`
(lines 146, 171), reduced modulo `tm`. -/
def acrossRadices (tm n : Nat) (d : List Nat) (c : List Nat) : List Nat :=
  (compl n c).map (fun a => (1 + d.getD a 0) % tm)

/-- The while loop of `operator[]` (lines 121–131): subtract block sizes
until `index < block_sizes[b]`; when the loop runs past the last block the
source throws, modelled as `none`.  On success it yields the block number
and the index local to that block. -/
def locateBlock : Nat → List Nat → Option (Nat × Nat)
  | _, [] => none
  | idx, s :: ss =>
    if idx < s then some (0, idx)
    else (locateBlock (idx - s) ss).map (fun p => (p.1 + 1, p.2))

/-- A digit extraction loop of `operator[]` (lines 136–149):
`digit = index % fdim; index /= fdim` over a list of radices; returns the
digits and the leftover index. -/
def decodeLoop : Nat → List Nat → List Nat × Nat
  | idx, [] => ([], idx)
  | idx, r :: rs =>
    (idx % r :: (decodeLoop (idx / r) rs).1, (decodeLoop (idx / r) rs).2)

/-- `Lexicographic::operator[]` (lines 117–151): locate the block, fetch
its combination, then extract the along digits and the across digits. -/
def elementAt (tm n k : Nat) (d : List Nat) (idx : Nat) : Option Element :=
  match locateBlock idx (block_sizes n k d) with
  | none => none
  | some (b, j) =>
    let c := (combosC n k).getD b []
    let p1 := decodeLoop j (alongRadices tm d c)
    let p2 := decodeLoop p1.2 (acrossRadices tm n d c)
    some ⟨c, p1.1, p2.1⟩

/-- The accumulation loops of `Lexicographic::index` (lines 162–174):
`result += digit * factor; factor *= fdim`, first over the along digits,
then continuing with the same factor over the across digits. -/
def encodeLoop : List Nat → List Nat → Nat → Nat
  | dg :: ds, r :: rs, f => dg * f + encodeLoop ds rs (f * r)
  | _, _, _ => 0

/-- `Lexicographic::index` (lines 153–176): the sum of the block sizes
before the element's combination, plus the mixed-radix accumulation of its
digits.  The source performs no validation of the element. -/
def index (tm n k : Nat) (d : List Nat) (e : Element) : Nat :=
  ((block_sizes n k d).take (combIndex e.directions)).sum
    + encodeLoop (e.position_along ++ e.position_across)
        (alongRadices tm d e.directions
          ++ acrossRadices tm n d e.directions) 1

/-- Every dimension and its successor fit the tiny integer type: with
`tm = 2 ^ w` this says `max d[i] + 1 < 2 ^ w`, so each radix survives the
`% tm` reduction unchanged. -/
def Fits (tm : Nat) (d : List Nat) : Prop :=
  1 < tm ∧ ∀ x ∈ d, x + 1 < tm

/-- A valid combination out of {0,…,n−1}: strictly increasing entries,
all below n (spec §3). -/
def IsComb (n : Nat) (c : List Nat) : Prop :=
  List.Pairwise (· < ·) c ∧ ∀ a ∈ c, a < n

/-- A well-formed Element for shape `d` (spec §3): valid directions, digit
vectors of the right lengths, every digit within its radix. -/
def WellFormed (n k : Nat) (d : List Nat) (e : Element) : Prop :=
  IsComb n e.directions ∧ e.directions.length = k ∧
  e.position_along.length = k ∧ e.position_across.length = n - k ∧
  (∀ i < k, e.position_along.getD i 0 < d.getD (inAx e.directions i) 0) ∧
  (∀ i < n - k,
    e.position_across.getD i 0 < 1 + d.getD (outAx n e.directions i) 0)

instance (tm : Nat) (d : List Nat) : Decidable (Fits tm d) := by
  unfold Fits; infer_instance

instance (n : Nat) (c : List Nat) : Decidable (IsComb n c) := by
  unfold IsComb; infer_instance

instance (n k : Nat) (d : List Nat) (e : Element) :
    Decidable (WellFormed n k d e) := by
  unfold WellFormed; infer_instance

/-! Combinatorics of the modelled Combinations layer. -/

theorem length_of_mem_combosC (n : Nat) :
    ∀ (k : Nat), ∀ c ∈ combosC n k, c.length = k := by
  induction n with
  | zero =>
    intro k c hc
    cases k with
    | zero => simp only [combosC, List.mem_singleton] at hc; simp [hc]
    | succ k => simp [combosC] at hc
  | succ n ih =>
    intro k c hc
    cases k with
    | zero => simp only [combosC, List.mem_singleton] at hc; simp [hc]
    | succ k =>
      rw [combosC, List.mem_append] at hc
      rcases hc with h | h
      · exact ih (k + 1) c h
      · rcases List.mem_map.mp h with ⟨c', hc', rfl⟩
        simp [ih k c' hc']

theorem combIndexFrom_append (a : Nat) (c : List Nat) :
    ∀ j : Nat, combIndexFrom j (c ++ [a])
      = combIndexFrom j c + Nat.choose a (j + c.length + 1) := by
  induction c with
  | nil => intro j; simp [combIndexFrom]
  | cons x c ih =>
    intro j
    have h1 : combIndexFrom j ((x :: c) ++ [a])
        = Nat.choose x (j + 1) + combIndexFrom (j + 1) (c ++ [a]) := rfl
    have h2 : combIndexFrom j (x :: c)
        = Nat.choose x (j + 1) + combIndexFrom (j + 1) c := rfl
    rw [h1, h2, ih (j + 1)]
    have h3 : j + 1 + c.length + 1 = j + (x :: c).length + 1 := by
      simp only [List.length_cons]; omega
    rw [h3]
    exact (Nat.add_assoc _ _ _).symm

theorem map_combIndex_combosC (n : Nat) :
    ∀ k : Nat, (combosC n k).map combIndex = List.range (Nat.choose n k) := by
  induction n with
  | zero =>
    intro k
    cases k with
    | zero => simp [combosC, combIndex, combIndexFrom, List.range_succ]
    | succ k => simp [combosC]
  | succ n ih =>
    intro k
    cases k with
    | zero => simp [combosC, combIndex, combIndexFrom, List.range_succ]
    | succ k =>
      rw [combosC, List.map_append, ih (k + 1), List.map_map]
      have hmap : (combosC n k).map (combIndex ∘ fun c => c ++ [n])
          = ((combosC n k).map combIndex).map
              (fun i => Nat.choose n (k + 1) + i) := by
        rw [List.map_map]
        apply List.map_congr_left
        intro c hc
        show combIndex (c ++ [n]) = Nat.choose n (k + 1) + combIndex c
        rw [combIndex, combIndex, combIndexFrom_append]
        have h : 0 + c.length + 1 = k + 1 := by
          rw [length_of_mem_combosC n k c hc]
          omega
        rw [h, Nat.add_comm]
      rw [hmap, ih k, Nat.choose_succ_succ', Nat.add_comm (Nat.choose n k),
        List.range_add]

theorem combosC_zero (n : Nat) : combosC n 0 = [[]] := by
  cases n <;> rfl

theorem combosC_length (n k : Nat) :
    (combosC n k).length = Nat.choose n k := by
  have h := congrArg List.length (map_combIndex_combosC n k)
  simpa using h

theorem combIndex_getElem (n k b : Nat) (hb : b < (combosC n k).length) :
    combIndex ((combosC n k)[b]) = b := by
  have h := map_combIndex_combosC n k
  have hbc : b < Nat.choose n k := by rw [← combosC_length n k]; exact hb
  have h2 : ((combosC n k).map combIndex)[b]?
      = some (combIndex ((combosC n k)[b])) := by
    rw [List.getElem?_map, List.getElem?_eq_getElem hb]
    rfl
  rw [h, List.getElem?_range hbc] at h2
  exact (Option.some.inj h2).symm

theorem combIndex_getD (n k b : Nat) (hb : b < (combosC n k).length) :
    combIndex ((combosC n k).getD b []) = b := by
  have h2 : (combosC n k).getD b [] = (combosC n k)[b] := by
    rw [List.getD_eq_getElem?_getD, List.getElem?_eq_getElem hb]
    rfl
  rw [h2]
  exact combIndex_getElem n k b hb

theorem mem_combosC (n : Nat) :
    ∀ c : List Nat, List.Pairwise (· < ·) c → (∀ a ∈ c, a < n) →
      c ∈ combosC n c.length := by
  induction n with
  | zero =>
    intro c _ hlt
    cases c with
    | nil => simp [combosC]
    | cons x c => exact absurd (hlt x (List.mem_cons_self x c)) (Nat.not_lt_zero x)
  | succ n ih =>
    intro c hpw hlt
    cases c with
    | nil => simp [combosC]
    | cons x t =>
      set c := x :: t with hc
      have hne : c ≠ [] := by simp [hc]
      have hlen1 : c.length = t.length + 1 := by rw [hc]; rfl
      by_cases hall : ∀ a ∈ c, a < n
      · have h1 := ih c hpw hall
        rw [hlen1, combosC, List.mem_append]
        left
        rw [← hlen1]
        exact h1
      · push_neg at hall
        obtain ⟨a, ha, han⟩ := hall
        have haeq : a = n := by
          have := hlt a ha
          omega
        have ha2 : n ∈ c := haeq ▸ ha
        have hsplit := List.dropLast_append_getLast hne
        have hpw2 := hpw
        rw [← hsplit, List.pairwise_append] at hpw2
        obtain ⟨hpwl, _, hrel⟩ := hpw2
        have hglast : c.getLast hne = n := by
          by_contra hgn
          have hg_lt : c.getLast hne < n + 1 := hlt _ (List.getLast_mem hne)
          have hmem2 : n ∈ c.dropLast ++ [c.getLast hne] := by
            rw [hsplit]; exact ha2
          rcases List.mem_append.mp hmem2 with hm | hm
          · have := hrel n hm (c.getLast hne) (List.mem_singleton.mpr rfl)
            omega
          · exact hgn (List.mem_singleton.mp hm).symm
        have hdl : ∀ b ∈ c.dropLast, b < n := by
          intro b hb
          have := hrel b hb (c.getLast hne) (List.mem_singleton.mpr rfl)
          omega
        have h1 := ih c.dropLast hpwl hdl
        have hlen : c.length = c.dropLast.length + 1 := by
          rw [← hsplit, List.length_append]; simp
        rw [hlen, combosC, List.mem_append]
        right
        rw [List.mem_map]
        refine ⟨c.dropLast, h1, ?_⟩
        rw [← hglast]
        exact hsplit

theorem combosC_getD_combIndex (n : Nat) (c : List Nat) (h : IsComb n c) :
    (combosC n c.length).getD (combIndex c) [] = c := by
  obtain ⟨hpw, hlt⟩ := h
  have hmem := mem_combosC n c hpw hlt
  obtain ⟨i, hi, hget⟩ := List.mem_iff_getElem.mp hmem
  have hci : combIndex c = i := by rw [← hget]; exact combIndex_getElem n c.length i hi
  rw [hci, List.getD_eq_getElem?_getD, List.getElem?_eq_getElem hi]
  exact hget

theorem combIndex_lt_choose (n : Nat) (c : List Nat) (h : IsComb n c) :
    combIndex c < Nat.choose n c.length := by
  obtain ⟨hpw, hlt⟩ := h
  have hmem := mem_combosC n c hpw hlt
  obtain ⟨i, hi, hget⟩ := List.mem_iff_getElem.mp hmem
  have hci : combIndex c = i := by rw [← hget]; exact combIndex_getElem n c.length i hi
  rw [hci, ← combosC_length]
  exact hi

/-! Mixed-radix decode and encode. -/

theorem decodeLoop_length (rs : List Nat) :
    ∀ idx : Nat, (decodeLoop idx rs).1.length = rs.length := by
  induction rs with
  | nil => intro idx; rfl
  | cons r rs ih => intro idx; simp [decodeLoop, ih]

theorem decodeLoop_snd (rs : List Nat) :
    ∀ idx : Nat, (decodeLoop idx rs).2 = idx / rs.prod := by
  induction rs with
  | nil => intro idx; simp [decodeLoop]
  | cons r rs ih =>
    intro idx
    simp only [decodeLoop, ih, List.prod_cons]
    rw [Nat.div_div_eq_div_mul]

theorem encodeLoop_mul (ds : List Nat) :
    ∀ (rs : List Nat) (a b : Nat),
      encodeLoop ds rs (a * b) = a * encodeLoop ds rs b := by
  induction ds with
  | nil => intro rs a b; simp [encodeLoop]
  | cons dg ds ih =>
    intro rs a b
    cases rs with
    | nil => simp [encodeLoop]
    | cons r rs =>
      simp only [encodeLoop]
      rw [Nat.mul_assoc, ih rs a (b * r)]
      ring

theorem encodeLoop_cons (dg r : Nat) (ds rs : List Nat) :
    encodeLoop (dg :: ds) (r :: rs) 1 = dg + r * encodeLoop ds rs 1 := by
  show dg * 1 + encodeLoop ds rs (1 * r) = _
  have hr : (1 : Nat) * r = r * 1 := by ring
  rw [Nat.mul_one, hr, encodeLoop_mul]

theorem encode_decode_invariant (rs : List Nat) :
    ∀ (idx f : Nat),
      encodeLoop (decodeLoop idx rs).1 rs f
          + f * rs.prod * (decodeLoop idx rs).2
        = f * idx := by
  induction rs with
  | nil => intro idx f; simp [decodeLoop, encodeLoop]
  | cons r rs ih =>
    intro idx f
    simp only [decodeLoop, encodeLoop, List.prod_cons]
    have h := ih (idx / r) (f * r)
    have hmod := Nat.mod_add_div idx r
    calc idx % r * f + encodeLoop (decodeLoop (idx / r) rs).1 rs (f * r)
          + f * (r * rs.prod) * (decodeLoop (idx / r) rs).2
        = idx % r * f + (encodeLoop (decodeLoop (idx / r) rs).1 rs (f * r)
          + f * r * rs.prod * (decodeLoop (idx / r) rs).2) := by ring
      _ = idx % r * f + f * r * (idx / r) := by rw [h]
      _ = f * (idx % r + r * (idx / r)) := by ring
      _ = f * idx := by rw [hmod]

theorem encode_decodeLoop (rs : List Nat) (idx : Nat) (h : idx < rs.prod) :
    encodeLoop (decodeLoop idx rs).1 rs 1 = idx := by
  have hinv := encode_decode_invariant rs idx 1
  rw [decodeLoop_snd, Nat.div_eq_of_lt h] at hinv
  simpa using hinv

theorem decodeLoop_encodeLoop (ds rs : List Nat)
    (h : List.Forall₂ (· < ·) ds rs) :
    decodeLoop (encodeLoop ds rs 1) rs = (ds, 0) := by
  induction h with
  | nil => rfl
  | @cons dg r ds rs hdr htail ih =>
    have hrpos : 0 < r := Nat.lt_of_le_of_lt (Nat.zero_le dg) hdr
    rw [encodeLoop_cons]
    show ((dg + r * encodeLoop ds rs 1) % r
        :: (decodeLoop ((dg + r * encodeLoop ds rs 1) / r) rs).1,
        (decodeLoop ((dg + r * encodeLoop ds rs 1) / r) rs).2) = (dg :: ds, 0)
    rw [Nat.add_mul_mod_self_left, Nat.mod_eq_of_lt hdr,
      Nat.add_mul_div_left _ _ hrpos, Nat.div_eq_of_lt hdr, Nat.zero_add, ih]

theorem encodeLoop_lt_prod (ds rs : List Nat)
    (h : List.Forall₂ (· < ·) ds rs) :
    encodeLoop ds rs 1 < rs.prod := by
  induction h with
  | nil => simp [encodeLoop]
  | @cons dg r ds rs hdr htail ih =>
    rw [encodeLoop_cons, List.prod_cons]
    have h3 : r * (encodeLoop ds rs 1 + 1) ≤ r * rs.prod :=
      Nat.mul_le_mul_left r ih
    have h4 : r * (encodeLoop ds rs 1 + 1) = r * encodeLoop ds rs 1 + r := by
      ring
    omega

theorem decodeLoop_forall₂ (rs : List Nat) :
    (∀ r ∈ rs, 0 < r) →
      ∀ idx : Nat, List.Forall₂ (· < ·) (decodeLoop idx rs).1 rs := by
  induction rs with
  | nil => intro _ idx; exact List.Forall₂.nil
  | cons r rs ih =>
    intro hpos idx
    have hr : 0 < r := hpos r (List.mem_cons_self r rs)
    have ht := ih (fun s hs => hpos s (List.mem_cons_of_mem r hs)) (idx / r)
    exact List.Forall₂.cons (Nat.mod_lt idx hr) ht

theorem decodeLoop_append (xs : List Nat) :
    ∀ (ys : List Nat) (idx : Nat),
      decodeLoop idx (xs ++ ys)
        = ((decodeLoop idx xs).1
            ++ (decodeLoop (decodeLoop idx xs).2 ys).1,
           (decodeLoop (decodeLoop idx xs).2 ys).2) := by
  induction xs with
  | nil => intro ys idx; rfl
  | cons x xs ih =>
    intro ys idx
    simp only [List.cons_append, decodeLoop, List.append_eq, ih,
      List.nil_append]

/-! The block-locating while loop. -/

theorem locateBlock_eq_none (ss : List Nat) :
    ∀ idx : Nat, locateBlock idx ss = none ↔ ss.sum ≤ idx := by
  induction ss with
  | nil => intro idx; simp [locateBlock]
  | cons s ss ih =>
    intro idx
    rw [locateBlock, List.sum_cons]
    by_cases h : idx < s
    · rw [if_pos h]
      constructor
      · intro hm; exact absurd hm (by simp)
      · intro hle; omega
    · rw [if_neg h]
      constructor
      · intro hm
        have hnone : locateBlock (idx - s) ss = none := by
          cases hcase : locateBlock (idx - s) ss with
          | none => rfl
          | some p => rw [hcase] at hm; simp at hm
        have := (ih (idx - s)).mp hnone
        omega
      · intro hle
        have hnone : locateBlock (idx - s) ss = none :=
          (ih (idx - s)).mpr (by omega)
        rw [hnone]
        rfl

theorem locateBlock_some (ss : List Nat) :
    ∀ (idx b j : Nat), locateBlock idx ss = some (b, j) →
      b < ss.length ∧ j < ss.getD b 0 ∧ idx = (ss.take b).sum + j := by
  induction ss with
  | nil => intro idx b j h; simp [locateBlock] at h
  | cons s ss ih =>
    intro idx b j h
    rw [locateBlock] at h
    by_cases hlt : idx < s
    · rw [if_pos hlt] at h
      simp only [Option.some.injEq, Prod.mk.injEq] at h
      obtain ⟨hb, hj⟩ := h
      subst hb; subst hj
      refine ⟨by simp, hlt, by simp⟩
    · rw [if_neg hlt] at h
      cases hcase : locateBlock (idx - s) ss with
      | none => rw [hcase] at h; simp at h
      | some p =>
        obtain ⟨p1, p2⟩ := p
        rw [hcase] at h
        simp only [Option.map_some', Option.some.injEq, Prod.mk.injEq] at h
        obtain ⟨hb, hj⟩ := h
        subst hb; subst hj
        obtain ⟨ih1, ih2, ih3⟩ := ih (idx - s) p1 p2 hcase
        refine ⟨by simpa using ih1, ih2, ?_⟩
        rw [List.take_succ_cons, List.sum_cons]
        omega

theorem locateBlock_of_lt (ss : List Nat) :
    ∀ (b j : Nat), b < ss.length → j < ss.getD b 0 →
      locateBlock ((ss.take b).sum + j) ss = some (b, j) := by
  induction ss with
  | nil => intro b j hb _; simp at hb
  | cons s ss ih =>
    intro b j hb hj
    cases b with
    | zero =>
      have hz : ((s :: ss).take 0).sum + j = j := by simp
      have hj0 : j < s := hj
      rw [hz, locateBlock, if_pos hj0]
    | succ b =>
      have hb2 : b < ss.length := by simpa using hb
      have hj2 : j < ss.getD b 0 := hj
      have hrec := ih b j hb2 hj2
      have hsum : ((s :: ss).take (b + 1)).sum + j
          = s + ((ss.take b).sum + j) := by
        rw [List.take_succ_cons, List.sum_cons]
        omega
      rw [hsum, locateBlock, if_neg (by omega)]
      have hsub : s + ((ss.take b).sum + j) - s = (ss.take b).sum + j := by
        omega
      rw [hsub, hrec]
      rfl

/-! Products, prefix sums, radix lists. -/

theorem foldl_mul_eq (f : Nat → Nat) (l : List Nat) :
    ∀ init : Nat, l.foldl (fun p a => p * f a) init = init * (l.map f).prod := by
  induction l with
  | nil => intro i; simp
  | cons x l ih =>
    intro i
    simp only [List.foldl_cons, List.map_cons, List.prod_cons, ih]
    ring

theorem mkBlockSize_eq (n : Nat) (d c : List Nat) :
    mkBlockSize n d c
      = (c.map fun a => d.getD a 0).prod
        * ((compl n c).map fun a => 1 + d.getD a 0).prod := by
  rw [mkBlockSize, foldl_mul_eq (fun a => 1 + d.getD a 0),
    foldl_mul_eq (fun a => d.getD a 0)]
  ring

theorem getD_lt_of_fits (tm : Nat) (d : List Nat) (h : Fits tm d) (a : Nat) :
    d.getD a 0 + 1 < tm := by
  obtain ⟨h1, h2⟩ := h
  by_cases ha : a < d.length
  · have hm : d.getD a 0 ∈ d := by
      rw [List.getD_eq_getElem?_getD, List.getElem?_eq_getElem ha]
      exact List.getElem_mem ha
    exact h2 _ hm
  · rw [List.getD_eq_getElem?_getD, List.getElem?_eq_none (by omega)]
    simpa using h1

theorem alongRadices_of_fits (tm : Nat) (d c : List Nat) (h : Fits tm d) :
    alongRadices tm d c = c.map (fun a => d.getD a 0) := by
  rw [alongRadices]
  apply List.map_congr_left
  intro a _
  exact Nat.mod_eq_of_lt (by have := getD_lt_of_fits tm d h a; omega)

theorem acrossRadices_of_fits (tm n : Nat) (d c : List Nat) (h : Fits tm d) :
    acrossRadices tm n d c = (compl n c).map (fun a => 1 + d.getD a 0) := by
  rw [acrossRadices]
  apply List.map_congr_left
  intro a _
  exact Nat.mod_eq_of_lt (by have := getD_lt_of_fits tm d h a; omega)

theorem prod_radices_eq_mkBlockSize (tm n : Nat) (d c : List Nat)
    (h : Fits tm d) :
    (alongRadices tm d c ++ acrossRadices tm n d c).prod = mkBlockSize n d c := by
  rw [List.prod_append, alongRadices_of_fits tm d c h,
    acrossRadices_of_fits tm n d c h, mkBlockSize_eq]

theorem sum_take_mono (l : List Nat) :
    ∀ i j : Nat, i ≤ j → (l.take i).sum ≤ (l.take j).sum := by
  induction l with
  | nil => intro i j _; simp
  | cons x l ih =>
    intro i j h
    cases i with
    | zero => simp
    | succ i =>
      cases j with
      | zero => omega
      | succ j =>
        simp only [List.take_succ_cons, List.sum_cons]
        have := ih i j (by omega)
        omega

theorem sum_take_succ (l : List Nat) :
    ∀ b : Nat, b < l.length →
      (l.take (b + 1)).sum = (l.take b).sum + l.getD b 0 := by
  induction l with
  | nil => intro b hb; simp at hb
  | cons x l ih =>
    intro b hb
    cases b with
    | zero => simp
    | succ b =>
      simp only [List.take_succ_cons, List.sum_cons]
      rw [ih b (by simpa using hb)]
      have hg : (x :: l).getD (b + 1) 0 = l.getD b 0 := rfl
      rw [hg]
      omega

/-! The composed bijection. -/

theorem block_sizes_getD (n k : Nat) (d : List Nat) (b : Nat)
    (hb : b < (combosC n k).length) :
    (block_sizes n k d).getD b 0
      = mkBlockSize n d ((combosC n k).getD b []) := by
  rw [block_sizes, List.getD_eq_getElem?_getD, List.getElem?_map,
    List.getElem?_eq_getElem hb, List.getD_eq_getElem?_getD,
    List.getElem?_eq_getElem hb]
  rfl

theorem roundtrip_decode_encode (tm n k : Nat) (d : List Nat) (idx : Nat)
    (hfit : Fits tm d) (hidx : idx < size n k d) :
    (elementAt tm n k d idx).map (index tm n k d) = some idx := by
  rw [size] at hidx
  cases hloc : locateBlock idx (block_sizes n k d) with
  | none =>
    have := (locateBlock_eq_none (block_sizes n k d) idx).mp hloc
    omega
  | some p =>
    obtain ⟨b, j⟩ := p
    obtain ⟨hb, hj, hsum⟩ := locateBlock_some (block_sizes n k d) idx b j hloc
    have hbc : b < (combosC n k).length := by
      have hlm : (block_sizes n k d).length = (combosC n k).length := by
        rw [block_sizes, List.length_map]
      omega
    have hbs : (block_sizes n k d).getD b 0
        = mkBlockSize n d ((combosC n k).getD b []) :=
      block_sizes_getD n k d b hbc
    unfold elementAt
    rw [hloc]
    simp only [Option.map_some']
    rw [index]
    dsimp only
    rw [combIndex_getD n k b hbc]
    have hsplit := decodeLoop_append
      (alongRadices tm d ((combosC n k).getD b []))
      (acrossRadices tm n d ((combosC n k).getD b [])) j
    have hdig : (decodeLoop j (alongRadices tm d ((combosC n k).getD b []))).1
        ++ (decodeLoop
            (decodeLoop j (alongRadices tm d ((combosC n k).getD b []))).2
            (acrossRadices tm n d ((combosC n k).getD b []))).1
        = (decodeLoop j (alongRadices tm d ((combosC n k).getD b [])
            ++ acrossRadices tm n d ((combosC n k).getD b []))).1 := by
      rw [hsplit]
    rw [hdig]
    have hprod : (alongRadices tm d ((combosC n k).getD b [])
        ++ acrossRadices tm n d ((combosC n k).getD b [])).prod
        = mkBlockSize n d ((combosC n k).getD b []) :=
      prod_radices_eq_mkBlockSize tm n d _ hfit
    have hjp : j < (alongRadices tm d ((combosC n k).getD b [])
        ++ acrossRadices tm n d ((combosC n k).getD b [])).prod := by
      rw [hprod, ← hbs]
      exact hj
    rw [encode_decodeLoop _ _ hjp]
    exact congrArg some hsum.symm

theorem getD_eq_get {α : Type} (l : List α) (dflt : α) (i : Nat)
    (h : i < l.length) : l.getD i dflt = l.get ⟨i, h⟩ := by
  rw [List.getD_eq_getElem?_getD, List.getElem?_eq_getElem h]
  rfl

theorem length_filter_add (p : Nat → Prop) [DecidablePred p] (l : List Nat) :
    (l.filter (fun a => decide (p a))).length
      + (l.filter (fun a => decide (¬ p a))).length = l.length := by
  induction l with
  | nil => rfl
  | cons x l ih =>
    by_cases hx : p x
    · rw [List.filter_cons, List.filter_cons, if_pos (by simp [hx]),
        if_neg (by simp [hx])]
      simp only [List.length_cons]
      omega
    · rw [List.filter_cons, List.filter_cons, if_neg (by simp [hx]),
        if_pos (by simp [hx])]
      simp only [List.length_cons]
      omega

theorem range_filter_mem (n : Nat) :
    ∀ c : List Nat, List.Pairwise (· < ·) c → (∀ a ∈ c, a < n) →
      (List.range n).filter (fun a => decide (a ∈ c)) = c := by
  induction n with
  | zero =>
    intro c _ hlt
    cases c with
    | nil => rfl
    | cons x c => exact absurd (hlt x (List.mem_cons_self x c)) (Nat.not_lt_zero x)
  | succ n ih =>
    intro c hpw hlt
    rw [List.range_succ, List.filter_append]
    by_cases hn : n ∈ c
    · have hne : c ≠ [] := by intro h; rw [h] at hn; simp at hn
      have hsplit := List.dropLast_append_getLast hne
      have hpw2 := hpw
      rw [← hsplit, List.pairwise_append] at hpw2
      obtain ⟨hpwl, _, hrel⟩ := hpw2
      have hglast : c.getLast hne = n := by
        by_contra hgn
        have hg_lt : c.getLast hne < n + 1 := hlt _ (List.getLast_mem hne)
        have hmem2 : n ∈ c.dropLast ++ [c.getLast hne] := by
          rw [hsplit]; exact hn
        rcases List.mem_append.mp hmem2 with hm | hm
        · have := hrel n hm (c.getLast hne) (List.mem_singleton.mpr rfl)
          omega
        · exact hgn (List.mem_singleton.mp hm).symm
      have hdl : ∀ b ∈ c.dropLast, b < n := by
        intro b hb
        have := hrel b hb (c.getLast hne) (List.mem_singleton.mpr rfl)
        omega
      have hcongr : (List.range n).filter (fun a => decide (a ∈ c))
          = (List.range n).filter (fun a => decide (a ∈ c.dropLast)) := by
        apply List.filter_congr
        intro a ha
        have han : a < n := by simpa using ha
        have hiff : a ∈ c ↔ a ∈ c.dropLast := by
          constructor
          · intro hac
            have : a ∈ c.dropLast ++ [c.getLast hne] := by rw [hsplit]; exact hac
            rcases List.mem_append.mp this with hm | hm
            · exact hm
            · have := List.mem_singleton.mp hm
              omega
          · intro hac
            rw [← hsplit]
            exact List.mem_append.mpr (Or.inl hac)
        simp [hiff]
      rw [hcongr, ih c.dropLast hpwl hdl]
      have hfn : [n].filter (fun a => decide (a ∈ c)) = [n] := by
        simp [hn]
      rw [hfn, ← hglast]
      exact hsplit
    · have hall : ∀ a ∈ c, a < n := by
        intro a ha
        have := hlt a ha
        have : a ≠ n := by intro h; rw [h] at ha; exact hn ha
        omega
      rw [ih c hpw hall]
      have hfn : [n].filter (fun a => decide (a ∈ c)) = [] := by
        simp [hn]
      rw [hfn, List.append_nil]

theorem compl_length (n : Nat) (c : List Nat) (h : IsComb n c) :
    (compl n c).length = n - c.length := by
  obtain ⟨hpw, hlt⟩ := h
  have hfil := range_filter_mem n c hpw hlt
  have hadd := length_filter_add (fun a => a ∈ c) (List.range n)
  rw [hfil] at hadd
  have hlr : (List.range n).length = n := List.length_range n
  rw [compl]
  omega

theorem wellFormed_forall₂ (tm n k : Nat) (d : List Nat) (e : Element)
    (hfit : Fits tm d) (hwf : WellFormed n k d e) :
    List.Forall₂ (· < ·) (e.position_along ++ e.position_across)
      (alongRadices tm d e.directions
        ++ acrossRadices tm n d e.directions) := by
  obtain ⟨hcomb, hdl, hal, hacl, hain, hacin⟩ := hwf
  have h1 : List.Forall₂ (· < ·) e.position_along
      (alongRadices tm d e.directions) := by
    rw [alongRadices_of_fits tm d _ hfit, List.forall₂_iff_get]
    constructor
    · rw [List.length_map]
      omega
    · intro i h1 h2
      simp only [List.get_eq_getElem, List.getElem_map]
      have hik : i < k := by omega
      have hic : i < e.directions.length := by
        rw [List.length_map] at h2
        exact h2
      have e1 : e.position_along.getD i 0 = e.position_along.get ⟨i, h1⟩ :=
        getD_eq_get _ _ i h1
      have e2 : inAx e.directions i = e.directions.get ⟨i, hic⟩ := by
        rw [inAx]
        exact getD_eq_get _ _ i hic
      have h3 := hain i hik
      rw [e1, e2] at h3
      simpa using h3
  have h2 : List.Forall₂ (· < ·) e.position_across
      (acrossRadices tm n d e.directions) := by
    rw [acrossRadices_of_fits tm n d _ hfit, List.forall₂_iff_get]
    have hcl : (compl n e.directions).length = n - k := by
      rw [compl_length n e.directions hcomb, hdl]
    constructor
    · rw [List.length_map, hcl]
      omega
    · intro i h1 h2
      simp only [List.get_eq_getElem, List.getElem_map]
      have hik : i < n - k := by omega
      have hic : i < (compl n e.directions).length := by
        rw [List.length_map] at h2
        exact h2
      have e1 : e.position_across.getD i 0 = e.position_across.get ⟨i, h1⟩ :=
        getD_eq_get _ _ i h1
      have e2 : outAx n e.directions i = (compl n e.directions).get ⟨i, hic⟩ := by
        rw [outAx]
        exact getD_eq_get _ _ i hic
      have h3 := hacin i hik
      rw [e1, e2] at h3
      simpa using h3
  exact List.rel_append h1 h2

theorem roundtrip_encode_decode (tm n k : Nat) (d : List Nat) (e : Element)
    (hfit : Fits tm d) (hwf : WellFormed n k d e) :
    elementAt tm n k d (index tm n k d e) = some e := by
  obtain ⟨hcomb, hdl, hal, hacl, hain, hacin⟩ := hwf
  have hfa := wellFormed_forall₂ tm n k d e hfit
    ⟨hcomb, hdl, hal, hacl, hain, hacin⟩
  have hclen : e.directions.length = k := hdl
  have hci_lt : combIndex e.directions < (combosC n k).length := by
    rw [combosC_length]
    have := combIndex_lt_choose n e.directions hcomb
    rw [hclen] at this
    exact this
  have hget : (combosC n k).getD (combIndex e.directions) [] = e.directions := by
    have := combosC_getD_combIndex n e.directions hcomb
    rw [hclen] at this
    exact this
  have hprod : (alongRadices tm d e.directions
      ++ acrossRadices tm n d e.directions).prod
      = mkBlockSize n d e.directions :=
    prod_radices_eq_mkBlockSize tm n d _ hfit
  have hE := encodeLoop_lt_prod _ _ hfa
  rw [hprod] at hE
  have hlenbs : (block_sizes n k d).length = (combosC n k).length := by
    rw [block_sizes, List.length_map]
  have hbs : (block_sizes n k d).getD (combIndex e.directions) 0
      = mkBlockSize n d e.directions := by
    rw [block_sizes_getD n k d _ hci_lt, hget]
  have hloc := locateBlock_of_lt (block_sizes n k d)
    (combIndex e.directions)
    (encodeLoop (e.position_along ++ e.position_across)
      (alongRadices tm d e.directions
        ++ acrossRadices tm n d e.directions) 1)
    (by omega) (by rw [hbs]; exact hE)
  rw [index]
  unfold elementAt
  rw [hloc]
  simp only []
  rw [hget]
  have hdec := decodeLoop_encodeLoop _ _ hfa
  have hsplit := decodeLoop_append
    (alongRadices tm d e.directions)
    (acrossRadices tm n d e.directions)
    (encodeLoop (e.position_along ++ e.position_across)
      (alongRadices tm d e.directions
        ++ acrossRadices tm n d e.directions) 1)
  rw [hdec] at hsplit
  have hlen1 : (decodeLoop
      (encodeLoop (e.position_along ++ e.position_across)
        (alongRadices tm d e.directions
          ++ acrossRadices tm n d e.directions) 1)
      (alongRadices tm d e.directions)).1.length
      = e.position_along.length := by
    rw [decodeLoop_length, alongRadices, List.length_map, hclen, hal]
  have happ : (decodeLoop
      (encodeLoop (e.position_along ++ e.position_across)
        (alongRadices tm d e.directions
          ++ acrossRadices tm n d e.directions) 1)
      (alongRadices tm d e.directions)).1
      ++ (decodeLoop
          (decodeLoop
            (encodeLoop (e.position_along ++ e.position_across)
              (alongRadices tm d e.directions
                ++ acrossRadices tm n d e.directions) 1)
            (alongRadices tm d e.directions)).2
          (acrossRadices tm n d e.directions)).1
      = e.position_along ++ e.position_across := by
    have := congrArg Prod.fst hsplit
    exact (by simpa using this : e.position_along ++ e.position_across = _).symm
  obtain ⟨hfst, hsnd⟩ := List.append_inj happ hlen1
  rw [hfst, hsnd]

/-! Auxiliary facts for the counting and ordering claims. -/

theorem isComb_of_mem_combosC (n : Nat) :
    ∀ (k : Nat), ∀ c ∈ combosC n k, IsComb n c := by
  induction n with
  | zero =>
    intro k c hc
    cases k with
    | zero =>
      simp only [combosC, List.mem_singleton] at hc
      subst hc
      exact ⟨List.Pairwise.nil, by simp⟩
    | succ k => simp [combosC] at hc
  | succ n ih =>
    intro k c hc
    cases k with
    | zero =>
      simp only [combosC, List.mem_singleton] at hc
      subst hc
      exact ⟨List.Pairwise.nil, by simp⟩
    | succ k =>
      rw [combosC, List.mem_append] at hc
      rcases hc with h | h
      · obtain ⟨hpw, hlt⟩ := ih (k + 1) c h
        exact ⟨hpw, fun a ha => Nat.lt_succ_of_lt (hlt a ha)⟩
      · rcases List.mem_map.mp h with ⟨c', hc', rfl⟩
        obtain ⟨hpw, hlt⟩ := ih k c' hc'
        constructor
        · rw [List.pairwise_append]
          refine ⟨hpw, List.pairwise_singleton _ _, ?_⟩
          intro a ha b hb
          rw [List.mem_singleton] at hb
          subst hb
          exact hlt a ha
        · intro a ha
          rcases List.mem_append.mp ha with hm | hm
          · exact Nat.lt_succ_of_lt (hlt a hm)
          · rw [List.mem_singleton] at hm
            omega

theorem getD_mem (l : List Nat) (b : Nat) (hb : b < l.length) :
    l.getD b 0 ∈ l := by
  rw [getD_eq_get l 0 b hb]
  exact List.get_mem l b hb

theorem getD_mem_list (l : List (List Nat)) (b : Nat) (hb : b < l.length) :
    l.getD b [] ∈ l := by
  rw [getD_eq_get l [] b hb]
  exact List.get_mem l b hb

theorem list_sum_eq_range (l : List Nat) :
    l.sum = ∑ j in Finset.range l.length, l.getD j 0 := by
  induction l with
  | nil => simp
  | cons x l ih =>
    rw [List.sum_cons, ih, List.length_cons, Finset.sum_range_succ']
    have hbody : ∀ j, (x :: l).getD (j + 1) 0 = l.getD j 0 := fun j => rfl
    simp only [hbody]
    have hz : (x :: l).getD 0 0 = x := rfl
    rw [hz]
    omega

theorem map_prod_eq_range (f : Nat → Nat) (l : List Nat) :
    (l.map f).prod = ∏ j in Finset.range l.length, f (l.getD j 0) := by
  induction l with
  | nil => simp
  | cons x l ih =>
    rw [List.map_cons, List.prod_cons, ih, List.length_cons,
      Finset.prod_range_succ']
    have hbody : ∀ j, (x :: l).getD (j + 1) 0 = l.getD j 0 := fun j => rfl
    simp only [hbody]
    have hz : (x :: l).getD 0 0 = x := rfl
    rw [hz]
    ring

theorem lt_sum_of_locate_some (ss : List Nat) (idx b j : Nat)
    (h : locateBlock idx ss = some (b, j)) : idx < ss.sum := by
  obtain ⟨hb, hj, hsum⟩ := locateBlock_some ss idx b j h
  have h1 := sum_take_succ ss b hb
  have h2 := sum_take_mono ss (b + 1) ss.length (by omega)
  rw [List.take_length] at h2
  omega

theorem combosC_nil_of_lt : ∀ (n k : Nat), n < k → combosC n k = [] := by
  intro n
  induction n with
  | zero =>
    intro k h
    cases k with
    | zero => omega
    | succ k => rfl
  | succ n ih =>
    intro k h
    cases k with
    | zero => omega
    | succ k =>
      rw [combosC, ih (k + 1) (by omega), ih k (by omega)]
      rfl

theorem combosC_self : ∀ n : Nat, combosC n n = [List.range n] := by
  intro n
  induction n with
  | zero => rfl
  | succ n ih =>
    rw [combosC, combosC_nil_of_lt n (n + 1) (by omega), ih, List.range_succ]
    rfl

theorem compl_nil (n : Nat) : compl n [] = List.range n := by
  rw [compl]
  apply List.filter_eq_self.mpr
  intro a _
  simp

theorem compl_range (n : Nat) : compl n (List.range n) = [] := by
  rw [compl]
  apply List.filter_eq_nil_iff.mpr
  intro a ha
  simp [ha]

theorem range_getD (n j : Nat) (hj : j < n) : (List.range n).getD j 0 = j := by
  have hj2 : j < (List.range n).length := by simpa using hj
  rw [getD_eq_get _ _ j hj2]
  simp

/-! The claims. -/

/-- C1: for every grid shape d with d[i] ≥ 1 whose dimensions fit the tiny
integer type, and every global index below size(), encoding the decoded
element returns the original index: index(operator[](i)) = i. -/
theorem claim1_roundtrip_index_elementAt (tm n k : Nat) (d : List Nat)
    (idx : Nat) (hfit : Fits tm d) (hlen : d.length = n)
    (hpos : ∀ x ∈ d, 1 ≤ x) (hidx : idx < size n k d) :
    (elementAt tm n k d idx).map (index tm n k d) = some idx :=
  roundtrip_decode_encode tm n k d idx hfit hidx

theorem claim1_witness :
    (elementAt 256 2 1 [2, 3] 11).map (index 256 2 1 [2, 3]) = some 11 :=
  claim1_roundtrip_index_elementAt 256 2 1 [2, 3] 11 (by decide) rfl
    (by decide) (by decide)

/-- C2: for every grid shape d with d[i] ≥ 1 whose dimensions fit the tiny
integer type, and every well-formed Element e, decoding the encoded index
returns the original element: operator[](index(e)) = e. -/
theorem claim2_roundtrip_elementAt_index (tm n k : Nat) (d : List Nat)
    (e : Element) (hfit : Fits tm d) (hlen : d.length = n)
    (hpos : ∀ x ∈ d, 1 ≤ x) (hwf : WellFormed n k d e) :
    elementAt tm n k d (index tm n k d e) = some e :=
  roundtrip_encode_decode tm n k d e hfit hwf

theorem claim2_witness :
    elementAt 256 2 1 [2, 3] (index 256 2 1 [2, 3] ⟨[1], [2], [2]⟩)
      = some ⟨[1], [2], [2]⟩ :=
  claim2_roundtrip_elementAt_index 256 2 1 [2, 3] ⟨[1], [2], [2]⟩
    (by decide) rfl (by decide) (by decide)

/-- C3: after construction, every block b < C(n,k) has
block_size(b) = Π d[in(j)] · Π (d[out(j)] + 1) over combination b's chosen
and complement axes, and size() is the sum of the block sizes. -/
theorem claim3_block_sizes_and_total (n k : Nat) (d : List Nat)
    (hlen : d.length = n) :
    (∀ b, b < Nat.choose n k →
      block_size n k d b
        = (∏ j in Finset.range k,
            d.getD (inAx ((combosC n k).getD b []) j) 0)
          * (∏ j in Finset.range (n - k),
              (d.getD (outAx n ((combosC n k).getD b []) j) 0 + 1)))
    ∧ size n k d
        = ∑ b in Finset.range (Nat.choose n k), block_size n k d b := by
  constructor
  · intro b hb
    have hbl : b < (combosC n k).length := by rw [combosC_length]; exact hb
    have hmem : (combosC n k).getD b [] ∈ combosC n k := getD_mem_list _ b hbl
    have hclen : ((combosC n k).getD b []).length = k :=
      length_of_mem_combosC n k _ hmem
    have hcomb : IsComb n ((combosC n k).getD b []) :=
      isComb_of_mem_combosC n k _ hmem
    rw [block_size, block_sizes_getD n k d b hbl, mkBlockSize_eq,
      map_prod_eq_range, map_prod_eq_range, hclen,
      compl_length n _ hcomb, hclen]
    simp only [inAx, outAx]
    congr 1
    apply Finset.prod_congr rfl
    intro j _
    omega
  · rw [size, list_sum_eq_range]
    have hlenbs : (block_sizes n k d).length = Nat.choose n k := by
      rw [block_sizes, List.length_map, combosC_length]
    rw [hlenbs]
    apply Finset.sum_congr rfl
    intro b _
    rfl

theorem claim3_witness :
    block_size 2 1 [2, 3] 0 = 8 ∧ size 2 1 [2, 3] = 17 :=
  ⟨((claim3_block_sizes_and_total 2 1 [2, 3] rfl).1 0 (by decide)).trans
      (by decide),
   ((claim3_block_sizes_and_total 2 1 [2, 3] rfl).2).trans (by decide)⟩

/-- C4: operator[] fails (modelled: returns none, for the source's throw)
exactly on indices at or above size(); below size() it returns an
Element. -/
theorem claim4_decode_out_of_range (tm n k : Nat) (d : List Nat)
    (idx : Nat) :
    elementAt tm n k d idx = none ↔ size n k d ≤ idx := by
  rw [size]
  cases hloc : locateBlock idx (block_sizes n k d) with
  | none =>
    simp only [elementAt, hloc]
    simp only [true_iff]
    exact (locateBlock_eq_none _ _).mp hloc
  | some p =>
    obtain ⟨b, j⟩ := p
    have hlt := lt_sum_of_locate_some _ idx b j hloc
    simp only [elementAt, hloc]
    constructor
    · intro h
      exact absurd h (by simp)
    · intro h
      omega

/-- C5, counterexample to the claim as stated: index performs no
validation.  Passed a malformed Element (along digit 2 at radix 2) it does
not fail; it returns a numeric result computed from the out-of-range
digit, which here collides with the index of a distinct well-formed
element. -/
theorem claim5_counterexample :
    ¬ WellFormed 2 2 [2, 2] ⟨[0, 1], [2, 0], []⟩
    ∧ WellFormed 2 2 [2, 2] ⟨[0, 1], [0, 1], []⟩
    ∧ (⟨[0, 1], [2, 0], []⟩ : Element) ≠ ⟨[0, 1], [0, 1], []⟩
    ∧ index 256 2 2 [2, 2] ⟨[0, 1], [2, 0], []⟩
        = index 256 2 2 [2, 2] ⟨[0, 1], [0, 1], []⟩ := by
  decide

/-- C5, amended: index never surfaces a failure.  A digit is accumulated
into the result exactly as given: the first along digit enters the result
as a plain additive contribution, with no range check, clamping or
normalisation, even when it is at or above its radix. -/
theorem claim5_amended_no_validation (tm n k : Nat) (d : List Nat)
    (dir rest across : List Nat) (a : Nat) (hne : dir ≠ []) :
    index tm n k d ⟨dir, a :: rest, across⟩
      = a + index tm n k d ⟨dir, 0 :: rest, across⟩ := by
  cases dir with
  | nil => exact absurd rfl hne
  | cons x tl =>
    rw [index, index]
    simp only [alongRadices, List.map_cons, List.cons_append, encodeLoop]
    omega

theorem claim5_amended_witness :
    index 256 2 2 [2, 2] ⟨[0, 1], [5, 0], []⟩
      = 5 + index 256 2 2 [2, 2] ⟨[0, 1], [0, 0], []⟩ :=
  claim5_amended_no_validation 256 2 2 [2, 2] [0, 1] [0] [] 5 (by decide)

/-- C6: incrementing position_along[0] by one (everything else equal,
both elements well-formed) increments index by exactly one. -/
theorem claim6_unit_step_along (tm n k : Nat) (d : List Nat)
    (e1 e2 : Element) (hpos : ∀ x ∈ d, 1 ≤ x)
    (hw1 : WellFormed n k d e1) (hw2 : WellFormed n k d e2)
    (hdir : e2.directions = e1.directions)
    (hacross : e2.position_across = e1.position_across)
    (a : Nat) (t : List Nat)
    (h1 : e1.position_along = a :: t)
    (h2 : e2.position_along = (a + 1) :: t) :
    index tm n k d e2 = index tm n k d e1 + 1 := by
  cases hcd : e1.directions with
  | nil =>
    exfalso
    obtain ⟨_, hdl, hal, _, _, _⟩ := hw1
    rw [hcd] at hdl
    rw [h1] at hal
    simp at hdl hal
    omega
  | cons x tl =>
    obtain ⟨e1d, e1a, e1c⟩ := e1
    obtain ⟨e2d, e2a, e2c⟩ := e2
    dsimp only at hcd hdir hacross h1 h2
    subst hcd hdir hacross h1 h2
    rw [index, index]
    simp only [alongRadices, List.map_cons, List.cons_append, encodeLoop]
    omega

theorem claim6_witness :
    index 256 2 1 [2, 3] ⟨[1], [1], [2]⟩
      = index 256 2 1 [2, 3] ⟨[1], [0], [2]⟩ + 1 :=
  claim6_unit_step_along 256 2 1 [2, 3] ⟨[1], [0], [2]⟩ ⟨[1], [1], [2]⟩
    (by decide) (by decide) (by decide) rfl rfl 0 [] rfl rfl

/-- C7: if the combination index of e1's directions is strictly smaller
than that of e2's directions (both well-formed, dimensions fitting the
tiny type), then index(e1) < index(e2). -/
theorem claim7_block_ordering (tm n k : Nat) (d : List Nat)
    (e1 e2 : Element) (hfit : Fits tm d) (hlen : d.length = n)
    (hpos : ∀ x ∈ d, 1 ≤ x)
    (hw1 : WellFormed n k d e1) (hw2 : WellFormed n k d e2)
    (hci : combIndex e1.directions < combIndex e2.directions) :
    index tm n k d e1 < index tm n k d e2 := by
  have hfa1 := wellFormed_forall₂ tm n k d e1 hfit hw1
  have hE1 := encodeLoop_lt_prod _ _ hfa1
  rw [prod_radices_eq_mkBlockSize tm n d _ hfit] at hE1
  obtain ⟨hcomb1, hdl1, _, _, _, _⟩ := hw1
  obtain ⟨hcomb2, hdl2, _, _, _, _⟩ := hw2
  have hci1_lt : combIndex e1.directions < (combosC n k).length := by
    rw [combosC_length]
    have := combIndex_lt_choose n e1.directions hcomb1
    rw [hdl1] at this
    exact this
  have hci2_le : combIndex e2.directions ≤ (combosC n k).length := by
    rw [combosC_length]
    have := combIndex_lt_choose n e2.directions hcomb2
    rw [hdl2] at this
    omega
  have hlenbs : (block_sizes n k d).length = (combosC n k).length := by
    rw [block_sizes, List.length_map]
  have hbs1 : (block_sizes n k d).getD (combIndex e1.directions) 0
      = mkBlockSize n d e1.directions := by
    rw [block_sizes_getD n k d _ hci1_lt]
    have hget := combosC_getD_combIndex n e1.directions hcomb1
    rw [hdl1] at hget
    rw [hget]
  have hstep := sum_take_succ (block_sizes n k d)
    (combIndex e1.directions) (by omega)
  have hmono := sum_take_mono (block_sizes n k d)
    (combIndex e1.directions + 1) (combIndex e2.directions) (by omega)
  rw [index, index]
  omega

theorem claim7_witness :
    index 256 2 1 [2, 3] ⟨[0], [0], [0]⟩
      < index 256 2 1 [2, 3] ⟨[1], [0], [0]⟩ :=
  claim7_block_ordering 256 2 1 [2, 3] ⟨[0], [0], [0]⟩ ⟨[1], [0], [0]⟩
    (by decide) rfl (by decide) (by decide) (by decide) (by decide)

/-- C8: with k = 0 the enumeration has Π (d[i] + 1) cells (the vertices);
with k = n it has Π d[i] cells (the top-dimensional cubes). -/
theorem claim8_corner_cases (n : Nat) (d : List Nat) (hlen : d.length = n)
    (hpos : ∀ x ∈ d, 1 ≤ x) :
    size n 0 d = (∏ i in Finset.range n, (d.getD i 0 + 1))
    ∧ size n n d = ∏ i in Finset.range n, d.getD i 0 := by
  constructor
  · have h0 : block_sizes n 0 d = [mkBlockSize n d []] := by
      rw [block_sizes, combosC_zero]
      rfl
    rw [size, h0, List.sum_cons, List.sum_nil, mkBlockSize_eq, compl_nil,
      map_prod_eq_range, map_prod_eq_range, List.length_range]
    have hbody : ∀ j ∈ Finset.range n,
        1 + d.getD ((List.range n).getD j 0) 0 = d.getD j 0 + 1 := by
      intro j hj
      rw [range_getD n j (Finset.mem_range.mp hj)]
      omega
    rw [Finset.prod_congr rfl hbody]
    simp
  · have hn : block_sizes n n d = [mkBlockSize n d (List.range n)] := by
      rw [block_sizes, combosC_self]
      rfl
    rw [size, hn, List.sum_cons, List.sum_nil, mkBlockSize_eq, compl_range,
      map_prod_eq_range, List.length_range]
    have hbody : ∀ j ∈ Finset.range n,
        d.getD ((List.range n).getD j 0) 0 = d.getD j 0 := by
      intro j hj
      rw [range_getD n j (Finset.mem_range.mp hj)]
    rw [Finset.prod_congr rfl hbody]
    simp

theorem claim8_witness :
    size 2 0 [2, 3] = 12 ∧ size 2 2 [2, 3] = 6 :=
  ⟨((claim8_corner_cases 2 [2, 3] rfl (by decide)).1).trans (by decide),
   ((claim8_corner_cases 2 [2, 3] rfl (by decide)).2).trans (by decide)⟩

/-- C9, counterexample to the claim as stated: the constructor performs no
validation.  A shape with entry 0 (a non-positive value; negative values
are not representable in the unsigned Sint) is accepted, the block whose
along-axis is the zero axis gets block size 0, and the enumerator remains
usable: decode succeeds below size() and roundtrips. -/
theorem claim9_counterexample :
    (0 : Nat) ∈ [0, 3] ∧ size 2 1 [0, 3] = 3
    ∧ block_size 2 1 [0, 3] 0 = 0
    ∧ elementAt 256 2 1 [0, 3] 0 = some ⟨[1], [0], [0]⟩
    ∧ index 256 2 1 [0, 3] ⟨[1], [0], [0]⟩ = 0 := by
  decide

/-- C9, amended: construction from a shape containing a zero entry is not
rejected at any time; the constructor is total, the affected blocks have
size zero, and the enumerator stays functional: the decode-encode
roundtrip still holds on every index below size(). -/
theorem claim9_amended_no_rejection (tm n k : Nat) (d : List Nat)
    (idx : Nat) (hfit : Fits tm d) (hzero : 0 ∈ d)
    (hidx : idx < size n k d) :
    (elementAt tm n k d idx).map (index tm n k d) = some idx :=
  roundtrip_decode_encode tm n k d idx hfit hidx

theorem claim9_amended_witness :
    (elementAt 256 2 1 [0, 3] 1).map (index 256 2 1 [0, 3]) = some 1 :=
  claim9_amended_no_rejection 256 2 1 [0, 3] 1 (by decide) (by decide)
    (by decide)

/-- C10: the per-axis radix is narrowed to the tiny integer type before
use (modelled by the modulus tm = 2^w threaded through alongRadices and
acrossRadices), so with the default 8-bit Tint a dimension of 300 — which
fits the 16-bit Sint — is reduced to 300 mod 256 = 44, and the
index-element bijection fails, while a Tint modulus of 2^16 restores it:
the Tint bound is strictly tighter than the spec's Sint bound. -/
theorem claim10_tint_truncation :
    (¬ Fits 256 [300]) ∧ Fits 65536 [300]
    ∧ alongRadices 256 [300] [0] = [300 % 256]
    ∧ 256 < size 1 1 [300]
    ∧ elementAt 256 1 1 [300] 256 = some ⟨[0], [36], []⟩
    ∧ (elementAt 256 1 1 [300] 256).map (index 256 1 1 [300]) = some 36
    ∧ (elementAt 65536 1 1 [300] 256).map (index 65536 1 1 [300])
        = some 256 := by
  decide

end TensorEnumeration
